import Mathlib

/-!
# Verification of the tolerant JSON-like text extractor (`json_pipeline`)

Shallow embedding of `CleanJSONTextExtractor` and its helpers over `List Char`.
Each Python regular expression used by the source is modelled by a deterministic
scanner: every pattern in the source (`"key"\s*:\s*"([^"]+)"`,
`"key"\s*:\s*\[(.*?)\]`, `"([^"]+)"`, `\{(.*?)\}`, `"([^"]+)"\s*:\s*"([^"]+)"`)
is free of effective backtracking (each greedy/lazy sub-match is forced), so
Python's leftmost-match search and non-overlapping `findall` are reproduced
exactly by position-by-position scanning.  Scans that jump past a match use a
`fuel` argument (initialised to `length + 1`, enough because every step consumes
at least one character) so that all definitions are structurally recursive and
kernel-evaluable.
-/

/-- Python's `\s` character class, restricted to the ASCII whitespace characters
(the inputs of interest are ASCII; this models `re`'s behaviour on them). -/

def isPySpace (c : Char) : Bool :=
  c = ' ' || c = '\t' || c = '\n' || c = '\r' || c = '\x0b' || c = '\x0c'

/-- `re.sub(r'\s+', ' ', text)`: replace every maximal whitespace run by a
single space.  The flag records whether we are inside a whitespace run. -/

def collapseWsAux : Bool → List Char → List Char
  | _, [] => []
  | inRun, c :: cs =>
    if isPySpace c then
      if inRun then collapseWsAux true cs
      else ' ' :: collapseWsAux true cs
    else c :: collapseWsAux false cs

def collapseWs (l : List Char) : List Char := collapseWsAux false l

/-- `re.sub(r',\s*,', ',', text)`: one left-to-right non-overlapping pass;
after a replacement, scanning resumes after the matched text. -/

def subCommaCommaAux : Nat → List Char → List Char
  | 0, l => l
  | fuel + 1, l =>
    match l with
    | [] => []
    | c :: cs =>
      if c = ',' then
        match cs.dropWhile isPySpace with
        | ',' :: rest => ',' :: subCommaCommaAux fuel rest
        | _ => c :: subCommaCommaAux fuel cs
      else c :: subCommaCommaAux fuel cs

def subCommaComma (l : List Char) : List Char := subCommaCommaAux (l.length + 1) l

/-- `re.sub(r'\[\s*,', '[', text)`. -/

def subLBracketCommaAux : Nat → List Char → List Char
  | 0, l => l
  | fuel + 1, l =>
    match l with
    | [] => []
    | c :: cs =>
      if c = '[' then
        match cs.dropWhile isPySpace with
        | ',' :: rest => '[' :: subLBracketCommaAux fuel rest
        | _ => c :: subLBracketCommaAux fuel cs
      else c :: subLBracketCommaAux fuel cs

def subLBracketComma (l : List Char) : List Char := subLBracketCommaAux (l.length + 1) l

/-- `re.sub(r',\s*\]', ']', text)`. -/

def subCommaRBracketAux : Nat → List Char → List Char
  | 0, l => l
  | fuel + 1, l =>
    match l with
    | [] => []
    | c :: cs =>
      if c = ',' then
        match cs.dropWhile isPySpace with
        | ']' :: rest => ']' :: subCommaRBracketAux fuel rest
        | _ => c :: subCommaRBracketAux fuel cs
      else c :: subCommaRBracketAux fuel cs

def subCommaRBracket (l : List Char) : List Char := subCommaRBracketAux (l.length + 1) l

/-- Python `str.strip()`: drop leading and trailing whitespace. -/

def stripWs (l : List Char) : List Char :=
  ((l.dropWhile isPySpace).reverse.dropWhile isPySpace).reverse

/-- `CleanJSONTextExtractor._clean_text`: whitespace collapse, then the three
punctuation fixes in source order, then strip. -/

def clean_text (l : List Char) : List Char :=
  stripWs (subCommaRBracket (subLBracketComma (subCommaComma (collapseWs l))))

/-- Match a literal character sequence at the head of the text, optionally
case-insensitively (Python `re.IGNORECASE` over ASCII); returns the remainder. -/

def matchChars (ci : Bool) : List Char → List Char → Option (List Char)
  | [], l => some l
  | _ :: _, [] => none
  | p :: ps, c :: cs =>
    if (if ci then p.toLower = c.toLower else p = c) then matchChars ci ps cs
    else none

/-- Try the pattern `"key"\s*:\s*"([^"]+)"` at the current position.  On
success returns the captured value together with the text after the match.
The greedy `[^"]+` is forced: it is the maximal run of non-quote characters,
which must be non-empty and followed by a closing quote. -/

def tryKV (ci : Bool) (key l : List Char) : Option (List Char × List Char) :=
  match matchChars ci ('"' :: key ++ ['"']) l with
  | none => none
  | some r1 =>
    match r1.dropWhile isPySpace with
    | ':' :: r3 =>
      match r3.dropWhile isPySpace with
      | '"' :: r5 =>
        let v := r5.takeWhile (· != '"')
        match r5.dropWhile (· != '"') with
        | '"' :: r7 => if v = [] then none else some (v, r7)
        | _ => none
      | _ => none
    | _ => none

/-- `re.search` of `"key"\s*:\s*"([^"]+)"`: leftmost match, returning the
captured group. -/

def search_kv (ci : Bool) (key : List Char) : List Char → Option (List Char)
  | [] => none
  | c :: cs =>
    match tryKV ci key (c :: cs) with
    | some (v, _) => some v
    | none => search_kv ci key cs

/-- Try the pattern `"key"\s*:\s*\[(.*?)\]` (with `re.DOTALL`) at the current
position: the lazy `(.*?)` captures up to the earliest following `]`. -/

def tryBracket (key l : List Char) : Option (List Char) :=
  match matchChars false ('"' :: key ++ ['"']) l with
  | none => none
  | some r1 =>
    match r1.dropWhile isPySpace with
    | ':' :: r3 =>
      match r3.dropWhile isPySpace with
      | '[' :: r5 =>
        match r5.dropWhile (· != ']') with
        | ']' :: _ => some (r5.takeWhile (· != ']'))
        | _ => none
      | _ => none
    | _ => none

/-- `re.search` of `"key"\s*:\s*\[(.*?)\]`: leftmost match, captured group. -/

def search_bracket_val (key : List Char) : List Char → Option (List Char)
  | [] => none
  | c :: cs =>
    match tryBracket key (c :: cs) with
    | some v => some v
    | none => search_bracket_val key cs

/-- Try the pattern `"([^"]+)"` at the current position. -/

def tryQuoted (l : List Char) : Option (List Char × List Char) :=
  match l with
  | '"' :: r =>
    let v := r.takeWhile (· != '"')
    match r.dropWhile (· != '"') with
    | '"' :: rest => if v = [] then none else some (v, rest)
    | _ => none
  | _ => none

/-- `re.findall(r'"([^"]+)"', text)`: non-overlapping left-to-right scan. -/

def findallQuotedAux : Nat → List Char → List (List Char)
  | 0, _ => []
  | _ + 1, [] => []
  | fuel + 1, c :: cs =>
    match tryQuoted (c :: cs) with
    | some (v, rest) => v :: findallQuotedAux fuel rest
    | none => findallQuotedAux fuel cs

def findall_quoted (l : List Char) : List (List Char) := findallQuotedAux (l.length + 1) l

/-- `re.findall(r'"key"\s*:\s*"([^"]+)"', text)`: non-overlapping scan. -/

def findallKeyValAux (key : List Char) : Nat → List Char → List (List Char)
  | 0, _ => []
  | _ + 1, [] => []
  | fuel + 1, c :: cs =>
    match tryKV false key (c :: cs) with
    | some (v, rest) => v :: findallKeyValAux key fuel rest
    | none => findallKeyValAux key fuel cs

def findall_key_val (key l : List Char) : List (List Char) :=
  findallKeyValAux key (l.length + 1) l

/-- Try the two-group pattern `"([^"]+)"\s*:\s*"([^"]+)"` at the current
position. -/

def tryPair (l : List Char) : Option ((List Char × List Char) × List Char) :=
  match l with
  | '"' :: r =>
    let k := r.takeWhile (· != '"')
    match r.dropWhile (· != '"') with
    | '"' :: r2 =>
      if k = [] then none
      else
        match r2.dropWhile isPySpace with
        | ':' :: r4 =>
          match r4.dropWhile isPySpace with
          | '"' :: r6 =>
            let v := r6.takeWhile (· != '"')
            match r6.dropWhile (· != '"') with
            | '"' :: r7 => if v = [] then none else some ((k, v), r7)
            | _ => none
          | _ => none
        | _ => none
    | _ => none
  | _ => none

/-- `re.findall(r'"([^"]+)"\s*:\s*"([^"]+)"', text)`: non-overlapping scan
returning (key, value) pairs. -/

def findallPairsAux : Nat → List Char → List (List Char × List Char)
  | 0, _ => []
  | _ + 1, [] => []
  | fuel + 1, c :: cs =>
    match tryPair (c :: cs) with
    | some (kv, rest) => kv :: findallPairsAux fuel rest
    | none => findallPairsAux fuel cs

def findall_pairs (l : List Char) : List (List Char × List Char) :=
  findallPairsAux (l.length + 1) l

/-- `re.findall(r'\{(.*?)\}', text, re.DOTALL)`: each fragment runs from a `{`
to the earliest following `}`; scanning resumes after that `}`.  If no `}`
follows the `{`, no further match can start, so the scan ends. -/

def findallBracesAux : Nat → List Char → List (List Char)
  | 0, _ => []
  | _ + 1, [] => []
  | fuel + 1, c :: cs =>
    if c = '\x7b' then
      match cs.dropWhile (· != '\x7d') with
      | '\x7d' :: rest => cs.takeWhile (· != '\x7d') :: findallBracesAux fuel rest
      | _ => []
    else findallBracesAux fuel cs

def findall_braces (l : List Char) : List (List Char) := findallBracesAux (l.length + 1) l

/-- `OrderedDict.fromkeys`: first-occurrence deduplication.  `seen` carries the
keys already emitted. -/

def dedupFirstAux (seen : List (List Char)) : List (List Char) → List (List Char)
  | [] => []
  | x :: xs => if x ∈ seen then dedupFirstAux seen xs else x :: dedupFirstAux (x :: seen) xs

def dedupFirst (l : List (List Char)) : List (List Char) := dedupFirstAux [] l

/-- One entry of the `diagnosis` category. -/

structure Diagnosis where
  site : List Char
  type : List Char
  result : List Char
deriving DecidableEq

/-- `self.extracted_data`: the six fixed categories.  `patient_info` and
`sites` are ordered mappings, modelled as association lists in insertion
order; the synthesised `specimen_<n>` key of `sites` is the 1-based position,
so `sites` is kept as the ordered list of (site, type) pairs. -/

structure ExtractionRecord where
  patient_info : List (List Char × List Char)
  clinical_info : List (List Char)
  sites : List (List Char × List Char)
  diagnoses : List Diagnosis
  descriptions : List (List Char)
  other : List (List Char)
deriving DecidableEq

/-- The patient-field patterns, in the dict-literal order of the source. -/

def patient_keys : List (List Char) :=
  ["patient_name".data, "patient_id".data, "age".data, "sex".data]

/-- `_extract_patient_info`: first match per field, `re.IGNORECASE`; absent
fields are omitted.  Insertion order is the fixed pattern order. -/

def extract_patient_info (text : List Char) : List (List Char × List Char) :=
  patient_keys.filterMap (fun k => (search_kv true k text).map (fun v => (k, v)))

/-- `_extract_clinical_data`. -/

def extract_clinical_data (text : List Char) : List (List Char) :=
  match search_bracket_val "clinical_data".data text with
  | none => []
  | some sub => dedupFirst (findall_quoted sub)

/-- `_extract_sites_and_specimens`: positional zip of all `"site"` and all
`"type"` values inside the bracketed `specimen` value, truncated to the
shorter list. -/

def extract_sites_and_specimens (text : List Char) : List (List Char × List Char) :=
  match search_bracket_val "specimen".data text with
  | none => []
  | some sub => (findall_key_val "site".data sub).zip (findall_key_val "type".data sub)

/-- Per-fragment diagnosis recovery: keep the fragment only if both `site` and
`result` matched; `type` defaults to `"N/A"`. -/

def diagOfFrag (frag : List Char) : Option Diagnosis :=
  match search_kv false "site".data frag, search_kv false "result".data frag with
  | some s, some r => some ⟨s, (search_kv false "type".data frag).getD "N/A".data, r⟩
  | _, _ => none

/-- `_extract_diagnoses`. -/

def extract_diagnoses (text : List Char) : List Diagnosis :=
  match search_bracket_val "diagnosis".data text with
  | none => []
  | some sub => (findall_braces sub).filterMap diagOfFrag

/-- `_extract_descriptions`. -/

def extract_descriptions (text : List Char) : List (List Char) :=
  match search_bracket_val "gross_description".data text with
  | none => []
  | some sub => dedupFirst (findall_key_val "description".data sub)

/-- The `known_keys` list of `_extract_other_data`. -/

def known_keys : List (List Char) :=
  ["patient_name".data, "patient_id".data, "age".data, "sex".data,
   "site".data, "type".data, "result".data, "description".data]

def lowerL (l : List Char) : List Char := l.map Char.toLower

/-- The body of `_extract_other_data`'s loop for one (key, value) pair:
skip keys in the reserved set (case-insensitively) and keys already present
in `patient_info`; otherwise format `"key: value"`. -/

def otherEntry (pinfo : List (List Char × List Char)) (kv : List Char × List Char) :
    Option (List Char) :=
  if lowerL kv.1 ∈ known_keys.map lowerL then none
  else if pinfo.any (fun p => p.1 = kv.1) then none
  else some (kv.1 ++ ": ".data ++ kv.2)

/-- `_extract_other_data`, given the already-populated `patient_info`. -/

def extract_other_data (text : List Char) (pinfo : List (List Char × List Char)) :
    List (List Char) :=
  (findall_pairs text).filterMap (otherEntry pinfo)

/-- `extract_from_text`: reset the record, clean the text, run the six
extractors in source order (`other` last, so it can consult `patient_info`). -/

def extract_from_text (text : List Char) : ExtractionRecord :=
  let t := clean_text text
  let pinfo := extract_patient_info t
  { patient_info := pinfo
    clinical_info := extract_clinical_data t
    sites := extract_sites_and_specimens t
    diagnoses := extract_diagnoses t
    descriptions := extract_descriptions t
    other := extract_other_data t pinfo }

/-- Python `str.title()` restricted to ASCII letters: a letter is uppercased
when the previous character is not a letter, lowercased otherwise. -/

def pyTitleAux : Bool → List Char → List Char
  | _, [] => []
  | prevAlpha, c :: cs =>
    if c.isAlpha then
      (if prevAlpha then c.toLower else c.toUpper) :: pyTitleAux true cs
    else c :: pyTitleAux false cs

/-- `key.replace('_', ' ').title()`. -/

def displayKey (k : List Char) : List Char :=
  pyTitleAux false (k.map (fun c => if c = '_' then ' ' else c))

/-- Decimal rendering of the 1-based counters used by `enumerate(..., 1)`. -/

def natDigits (n : Nat) : List Char := Nat.toDigits 10 n

/-- Map with an explicit counter, for `enumerate(xs, i0)`. -/

def enumFrom {α β : Type} (f : Nat → α → β) : Nat → List α → List β
  | _, [] => []
  | i, x :: xs => f i x :: enumFrom f (i + 1) xs

def render_patient_info (pi : List (List Char × List Char)) : List (List Char) :=
  if pi = [] then []
  else ("PATIENT INFORMATION:".data ::
    pi.map (fun kv => "  • ".data ++ displayKey kv.1 ++ ": ".data ++ kv.2)) ++ [[]]

def render_clinical_info (ci : List (List Char)) : List (List Char) :=
  if ci = [] then []
  else ("CLINICAL DATA:".data :: ci.map (fun item => "  • ".data ++ item)) ++ [[]]

def render_sites (ss : List (List Char × List Char)) : List (List Char) :=
  if ss = [] then []
  else ("SPECIMEN COLLECTION SITES:".data ::
    ss.map (fun st => "  • ".data ++ st.1 ++ " - ".data ++ st.2)) ++ [[]]

def diagLines (i : Nat) (d : Diagnosis) : List (List Char) :=
  ["  ".data ++ natDigits i ++ ". Site: ".data ++ d.site,
   "     Type: ".data ++ d.type,
   "     Result: ".data ++ d.result,
   []]

def render_diagnoses (ds : List Diagnosis) : List (List Char) :=
  if ds = [] then []
  else "DIAGNOSIS RESULTS:".data :: (enumFrom diagLines 1 ds).flatten

def render_descriptions (ds : List (List Char)) : List (List Char) :=
  if ds = [] then []
  else ("GROSS DESCRIPTIONS:".data ::
    enumFrom (fun i d => "  ".data ++ natDigits i ++ ". ".data ++ d) 1 ds) ++ [[]]

def render_other (os : List (List Char)) : List (List Char) :=
  if os = [] then []
  else "ADDITIONAL INFORMATION:".data :: os.map (fun item => "  • ".data ++ item)

/-- The line list built by `to_natural_language`, in source order. -/

def renderLines (r : ExtractionRecord) : List (List Char) :=
  render_patient_info r.patient_info ++ render_clinical_info r.clinical_info ++
  render_sites r.sites ++ render_diagnoses r.diagnoses ++
  render_descriptions r.descriptions ++ render_other r.other

/-- `to_natural_language`: `"\n".join(lines)`. -/

def to_natural_language (r : ExtractionRecord) : List Char :=
  List.intercalate ['\n'] (renderLines r)

/-- `extract_text_from_json`, restricted to the string branch of the source:
for a string input, `str(json_input)` is the identity, after which the
extractor runs and the record is rendered. -/

def extract_text_from_json (json_input : List Char) : List Char :=
  let json_str := json_input
  to_natural_language (extract_from_text json_str)

/-! ## Concrete inputs used by the witnesses -/

def exC2 : List Char :=
  ("\x7b\"specimen\": [\x7b\"site\": \"A\", \"type\": \"T1\"\x7d, " ++
   "\x7b\"site\": \"B\", \"type\": \"T2\"\x7d, \x7b\"site\": \"C\"\x7d]\x7d").data

def exC2sub : List Char :=
  ("\x7b\"site\": \"A\", \"type\": \"T1\"\x7d, " ++
   "\x7b\"site\": \"B\", \"type\": \"T2\"\x7d, \x7b\"site\": \"C\"\x7d").data

def exC9 : List Char := "\x7b\"patient_name\": \"John\", \"age\": \"\"\x7d".data

def exC3 : List Char :=
  ("\x7b\"diagnosis\": [\x7b\"site\": \"Left Neck\"\x7d, " ++
   "\x7b\"site\": \"Arm\", \"result\": \"OK\"\x7d]\x7d").data

def exC3sub : List Char :=
  ("\x7b\"site\": \"Left Neck\"\x7d, \x7b\"site\": \"Arm\", \"result\": \"OK\"\x7d").data

def exC4 : List Char :=
  "\x7b\"clinical_data\": [\"R/O WART\", \"R/O WART\", \"R/O TINEA\"]\x7d".data

def exC4sub : List Char := "\"R/O WART\", \"R/O WART\", \"R/O TINEA\"".data

def exC5 : List Char :=
  "\x7b\"patient_name\": \"John Doe\", \"age\": \"30 Years\", \"custom_field\": \"X\"\x7d".data

def bracket_capture_truncation_witness_input : List Char :=
  "\x7b\"clinical_data\": [\"one\", \"tw]o\", \"three\"]\x7d".data

/-- Every whitespace character of `l` is a plain space. -/
def allWsIsSpace (l : List Char) : Bool :=
  l.all (fun c => !(isPySpace c) || c = ' ')

/-- No two adjacent characters of `l` are both spaces. -/
def noTwoSpaces : List Char → Bool
  | [] => true
  | [_] => true
  | a :: b :: rest => !(a == ' ' && b == ' ') && noTwoSpaces (b :: rest)

/-! ## Sanity checks of the embedding on concrete inputs -/

theorem sanity_check_1 : collapseWs "a  b\t c".data = "a b c".data := by decide

theorem sanity_check_2 : subCommaComma ",,,".data = ",,".data := by decide

theorem sanity_check_3 : subCommaComma ", , ,".data = ", ,".data := by decide

theorem sanity_check_4 : clean_text "  [ , \"a\" ,, \"b\" , ]  ".data = "[ \"a\" , \"b\" ]".data := by decide

theorem sanity_check_5 : search_kv true "age".data "x \"AGE\" : \"21\" y".data = some "21".data := by decide

theorem sanity_check_6 : search_kv false "age".data "\"age\": \"\"".data = none := by decide

theorem sanity_check_7 : findall_quoted "\"a\" \"\" \"bc\"".data = ["a".data, " ".data] := by decide

theorem sanity_check_8 : findall_quoted "\"a\", \"bc\"".data = ["a".data, "bc".data] := by decide

theorem sanity_check_9 : findall_braces "[\x7ba\x7d, \x7bbc".data = ["a".data] := by decide

theorem sanity_check_10 : findall_pairs "\"k\": \"v\", \"site\" : \"s\"".data =
    [("k".data, "v".data), ("site".data, "s".data)] := by decide

theorem sanity_check_11 : search_bracket_val "d".data "\"d\": [\"a]b\", \"c\"]".data = some "\"a".data := by
  decide

theorem sanity_check_12 :
    extract_text_from_json "\x7b\"patient_name\": \"John Doe\", \"age\": \"30 Years\"\x7d".data =
    ("PATIENT INFORMATION:\n  • Patient Name: John Doe\n  • Age: 30 Years\n").data := by
  decide

/-! ## Basic facts about the scanners -/

theorem takeWhile_ne_nil_of_head (p : Char → Bool) (r : List Char)
    (h0 : 0 < r.length) (h1 : p r[0] = true) : r.takeWhile p ≠ [] := by
  cases r with
  | nil => simp at h0
  | cons c cs => simp_all [List.takeWhile_cons]

theorem tryKV_val_ne_nil (ci : Bool) (key l v r : List Char)
    (h : tryKV ci key l = some (v, r)) : v ≠ [] := by
  unfold tryKV at h
  repeat' split at h
  all_goals try simp_all
  obtain ⟨⟨h0, h1⟩, h2, h3⟩ := h
  rw [← h2]
  exact takeWhile_ne_nil_of_head _ _ h0 (by simpa using h1)

theorem search_kv_ne_nil (ci : Bool) (key : List Char) :
    ∀ l v, search_kv ci key l = some v → v ≠ []
  | [], v => by simp [search_kv]
  | c :: cs, v => by
    intro h
    cases hw : tryKV ci key (c :: cs) with
    | none =>
      simp only [search_kv, hw] at h
      exact search_kv_ne_nil ci key cs v h
    | some p =>
      obtain ⟨w, r⟩ := p
      simp only [search_kv, hw] at h
      cases h
      exact tryKV_val_ne_nil ci key (c :: cs) _ _ hw

theorem tryQuoted_ne_nil (l v r : List Char) (h : tryQuoted l = some (v, r)) : v ≠ [] := by
  unfold tryQuoted at h
  repeat' split at h
  all_goals try simp_all
  obtain ⟨⟨h0, h1⟩, h2, h3⟩ := h
  rw [← h2]
  exact takeWhile_ne_nil_of_head _ _ h0 (by simpa using h1)

theorem tryPair_ne_nil (l : List Char) (kv : List Char × List Char) (r : List Char)
    (h : tryPair l = some (kv, r)) : kv.1 ≠ [] ∧ kv.2 ≠ [] := by
  unfold tryPair at h
  repeat' split at h
  all_goals try simp_all
  obtain ⟨⟨h0, h1⟩, ⟨h0', h1'⟩, h2, h3⟩ := h
  rw [← h2]
  constructor
  · exact takeWhile_ne_nil_of_head _ _ h0 (by simpa using h1)
  · exact takeWhile_ne_nil_of_head _ _ h0' (by simpa using h1')

theorem findallQuotedAux_ne_nil :
    ∀ fuel l v, v ∈ findallQuotedAux fuel l → v ≠ []
  | 0, l, v => by simp [findallQuotedAux]
  | _ + 1, [], v => by simp [findallQuotedAux]
  | fuel + 1, c :: cs, v => by
    intro hv
    cases hw : tryQuoted (c :: cs) with
    | none =>
      simp only [findallQuotedAux, hw] at hv
      exact findallQuotedAux_ne_nil fuel cs v hv
    | some p =>
      obtain ⟨w, rest⟩ := p
      simp only [findallQuotedAux, hw] at hv
      rcases List.mem_cons.mp hv with h | h
      · subst h; exact tryQuoted_ne_nil (c :: cs) _ _ hw
      · exact findallQuotedAux_ne_nil fuel rest v h

theorem findallKeyValAux_ne_nil (key : List Char) :
    ∀ fuel l v, v ∈ findallKeyValAux key fuel l → v ≠ []
  | 0, l, v => by simp [findallKeyValAux]
  | _ + 1, [], v => by simp [findallKeyValAux]
  | fuel + 1, c :: cs, v => by
    intro hv
    cases hw : tryKV false key (c :: cs) with
    | none =>
      simp only [findallKeyValAux, hw] at hv
      exact findallKeyValAux_ne_nil key fuel cs v hv
    | some p =>
      obtain ⟨w, rest⟩ := p
      simp only [findallKeyValAux, hw] at hv
      rcases List.mem_cons.mp hv with h | h
      · subst h; exact tryKV_val_ne_nil false key (c :: cs) _ _ hw
      · exact findallKeyValAux_ne_nil key fuel rest v h

theorem findall_key_val_ne_nil (key l v : List Char) (h : v ∈ findall_key_val key l) :
    v ≠ [] :=
  findallKeyValAux_ne_nil key _ l v h

theorem findall_quoted_ne_nil (l v : List Char) (h : v ∈ findall_quoted l) : v ≠ [] :=
  findallQuotedAux_ne_nil _ l v h

theorem findallPairsAux_ne_nil :
    ∀ fuel l kv, kv ∈ findallPairsAux fuel l → kv.1 ≠ [] ∧ kv.2 ≠ []
  | 0, l, kv => by simp [findallPairsAux]
  | _ + 1, [], kv => by simp [findallPairsAux]
  | fuel + 1, c :: cs, kv => by
    intro hv
    cases hw : tryPair (c :: cs) with
    | none =>
      simp only [findallPairsAux, hw] at hv
      exact findallPairsAux_ne_nil fuel cs kv hv
    | some p =>
      obtain ⟨w, rest⟩ := p
      simp only [findallPairsAux, hw] at hv
      rcases List.mem_cons.mp hv with h | h
      · subst h; exact tryPair_ne_nil (c :: cs) _ _ hw
      · exact findallPairsAux_ne_nil fuel rest kv h

theorem findall_pairs_ne_nil (l : List Char) (kv : List Char × List Char)
    (h : kv ∈ findall_pairs l) : kv.1 ≠ [] ∧ kv.2 ≠ [] :=
  findallPairsAux_ne_nil _ l kv h

/-! ## Facts about first-occurrence deduplication -/

theorem dedupFirstAux_mem (x : List Char) :
    ∀ l seen, x ∈ dedupFirstAux seen l ↔ (x ∈ l ∧ x ∉ seen)
  | [], seen => by simp [dedupFirstAux]
  | y :: ys, seen => by
    simp only [dedupFirstAux]
    split
    · rename_i hy
      rw [dedupFirstAux_mem x ys seen]
      constructor
      · exact fun ⟨h1, h2⟩ => ⟨List.mem_cons_of_mem y h1, h2⟩
      · rintro ⟨h1, h2⟩
        rcases List.mem_cons.mp h1 with h | h
        · exact absurd (h ▸ hy) h2
        · exact ⟨h, h2⟩
    · rename_i hy
      simp only [List.mem_cons]
      rw [dedupFirstAux_mem x ys (y :: seen)]
      constructor
      · rintro (h | ⟨h1, h2⟩)
        · subst h; exact ⟨Or.inl rfl, hy⟩
        · exact ⟨Or.inr h1, fun hx => h2 (List.mem_cons_of_mem y hx)⟩
      · rintro ⟨h1 | h1, h2⟩
        · exact Or.inl h1
        · by_cases hxy : x = y
          · exact Or.inl hxy
          · exact Or.inr ⟨h1, by simp [List.mem_cons, hxy, h2]⟩
    

theorem dedupFirstAux_nodup : ∀ (l seen : List (List Char)), (dedupFirstAux seen l).Nodup
  | [], seen => by simp [dedupFirstAux]
  | y :: ys, seen => by
    simp only [dedupFirstAux]
    split
    · exact dedupFirstAux_nodup ys seen
    · refine List.nodup_cons.mpr ⟨fun hy => ?_, dedupFirstAux_nodup ys (y :: seen)⟩
      exact ((dedupFirstAux_mem y ys (y :: seen)).mp hy).2 (List.mem_cons_self y seen)

theorem dedupFirstAux_sublist : ∀ (l seen : List (List Char)),
    (dedupFirstAux seen l).Sublist l
  | [], seen => by simp [dedupFirstAux]
  | y :: ys, seen => by
    simp only [dedupFirstAux]
    split
    · exact (dedupFirstAux_sublist ys seen).cons y
    · exact (dedupFirstAux_sublist ys (y :: seen)).cons₂ y

theorem dedupFirst_mem (x : List Char) (l : List (List Char)) :
    x ∈ dedupFirst l ↔ x ∈ l := by
  rw [dedupFirst, dedupFirstAux_mem]
  simp

theorem dedupFirst_nodup (l : List (List Char)) : (dedupFirst l).Nodup :=
  dedupFirstAux_nodup l []

theorem dedupFirst_sublist (l : List (List Char)) : (dedupFirst l).Sublist l :=
  dedupFirstAux_sublist l []

/-! ## Indexing a zipped list -/

theorem zip_get?_iff {α β : Type} :
    ∀ (a : List α) (b : List β) (i : Nat) (x : α) (y : β),
      (a.zip b).get? i = some (x, y) ↔ (a.get? i = some x ∧ b.get? i = some y)
  | [], b, i, x, y => by simp [List.zip]
  | a :: as, [], i, x, y => by simp [List.zip]
  | a :: as, b :: bs, 0, x, y => by
    simp [List.zip_cons_cons, Prod.ext_iff]
  | a :: as, b :: bs, i + 1, x, y => by
    simpa [List.zip_cons_cons] using zip_get?_iff as bs i x y

/-! ## Shape of the extracted record -/

theorem extract_from_text_def (s : List Char) :
    extract_from_text s =
      { patient_info := extract_patient_info (clean_text s)
        clinical_info := extract_clinical_data (clean_text s)
        sites := extract_sites_and_specimens (clean_text s)
        diagnoses := extract_diagnoses (clean_text s)
        descriptions := extract_descriptions (clean_text s)
        other := extract_other_data (clean_text s) (extract_patient_info (clean_text s)) } :=
  rfl

/-! ## Claim theorems -/

/-- C1: for every string `s`, `extract_from_text s` and
`to_natural_language (extract_from_text s)` are defined (the embedding is
total, so no step raises), and an extractor whose pattern search finds no
match leaves its record field at the empty default: an unmatched patient key
is absent from `patient_info`, a failed bracket search leaves the
corresponding list empty, and no key/value pairs leave `other` empty. -/

theorem extract_total_and_defaults (s : List Char) :
    (∃ out : List Char, to_natural_language (extract_from_text s) = out) ∧
    (∀ k v, search_kv true k (clean_text s) = none →
      (k, v) ∉ (extract_from_text s).patient_info) ∧
    (search_bracket_val "clinical_data".data (clean_text s) = none →
      (extract_from_text s).clinical_info = []) ∧
    (search_bracket_val "specimen".data (clean_text s) = none →
      (extract_from_text s).sites = []) ∧
    (search_bracket_val "diagnosis".data (clean_text s) = none →
      (extract_from_text s).diagnoses = []) ∧
    (search_bracket_val "gross_description".data (clean_text s) = none →
      (extract_from_text s).descriptions = []) ∧
    (findall_pairs (clean_text s) = [] → (extract_from_text s).other = []) := by
  refine ⟨⟨_, rfl⟩, ?_, ?_, ?_, ?_, ?_, ?_⟩
  · intro k v hnone hmem
    rw [extract_from_text_def] at hmem
    simp only [extract_patient_info, List.mem_filterMap] at hmem
    obtain ⟨a, ha, hfa⟩ := hmem
    rw [Option.map_eq_some'] at hfa
    obtain ⟨w, hw, hp⟩ := hfa
    cases hp
    rw [hnone] at hw
    exact Option.noConfusion hw
  · intro h
    rw [extract_from_text_def]
    simp only [extract_clinical_data, h]
  · intro h
    rw [extract_from_text_def]
    simp only [extract_sites_and_specimens, h]
  · intro h
    rw [extract_from_text_def]
    simp only [extract_diagnoses, h]
  · intro h
    rw [extract_from_text_def]
    simp only [extract_descriptions, h]
  · intro h
    rw [extract_from_text_def]
    simp only [extract_other_data, h, List.filterMap_nil]

theorem extract_total_and_defaults_witness :
    ("age".data, "21 Years".data) ∉ (extract_from_text []).patient_info ∧
    (extract_from_text []).clinical_info = [] ∧
    (extract_from_text []).sites = [] ∧
    (extract_from_text []).diagnoses = [] ∧
    (extract_from_text []).descriptions = [] ∧
    (extract_from_text []).other = [] :=
  ⟨(extract_total_and_defaults []).2.1 _ _ (by decide),
   (extract_total_and_defaults []).2.2.1 (by decide),
   (extract_total_and_defaults []).2.2.2.1 (by decide),
   (extract_total_and_defaults []).2.2.2.2.1 (by decide),
   (extract_total_and_defaults []).2.2.2.2.2.1 (by decide),
   (extract_total_and_defaults []).2.2.2.2.2.2 (by decide)⟩

/-- C8: the convenience entry point `extract_text_from_json`, applied to a
string, is exactly the renderer composed with the extractor. -/

theorem compose_extract_render (json_input : List Char) :
    extract_text_from_json json_input =
      to_natural_language (extract_from_text json_input) := rfl

/-- C2: whenever the `specimen` bracket search succeeds with captured
substring `sub`, the `sites` mapping has exactly
`min (count sites) (count types)` entries and pairs the i-th collected site
with the i-th collected type, positionally across the whole substring. -/

theorem specimen_positional_pairing (s sub : List Char)
    (h : search_bracket_val "specimen".data (clean_text s) = some sub) :
    (extract_from_text s).sites.length =
      min (findall_key_val "site".data sub).length
          (findall_key_val "type".data sub).length ∧
    ∀ i x y,
      (extract_from_text s).sites.get? i = some (x, y) ↔
        ((findall_key_val "site".data sub).get? i = some x ∧
         (findall_key_val "type".data sub).get? i = some y) := by
  have hs : (extract_from_text s).sites =
      (findall_key_val "site".data sub).zip (findall_key_val "type".data sub) := by
    rw [extract_from_text_def]
    simp only [extract_sites_and_specimens, h]
  refine ⟨?_, ?_⟩
  · rw [hs, List.length_zip]
  · intro i x y
    rw [hs]
    exact zip_get?_iff _ _ i x y

theorem specimen_positional_pairing_witness :
    (extract_from_text exC2).sites.length = 2 ∧
    (extract_from_text exC2).sites.get? 0 = some ("A".data, "T1".data) ∧
    (extract_from_text exC2).sites.get? 1 = some ("B".data, "T2".data) := by
  have h := specimen_positional_pairing exC2 exC2sub (by decide)
  refine ⟨?_, ?_, ?_⟩
  · rw [h.1]; decide
  · exact (h.2 0 _ _).mpr ⟨by decide, by decide⟩
  · exact (h.2 1 _ _).mpr ⟨by decide, by decide⟩

/-- C9: every string stored in the record is non-empty, because every value
pattern requires at least one non-quote character; the default diagnosis type
`"N/A"` is non-empty as well. -/

theorem extracted_strings_nonempty (s : List Char) :
    (∀ kv ∈ (extract_from_text s).patient_info, kv.2 ≠ []) ∧
    (∀ x ∈ (extract_from_text s).clinical_info, x ≠ []) ∧
    (∀ st ∈ (extract_from_text s).sites, st.1 ≠ [] ∧ st.2 ≠ []) ∧
    (∀ d ∈ (extract_from_text s).diagnoses,
      d.site ≠ [] ∧ d.type ≠ [] ∧ d.result ≠ []) ∧
    (∀ x ∈ (extract_from_text s).descriptions, x ≠ []) ∧
    (∀ kv ∈ findall_pairs (clean_text s), kv.1 ≠ [] ∧ kv.2 ≠ []) ∧
    (∀ x ∈ (extract_from_text s).other, x ≠ []) := by
  rw [extract_from_text_def]
  refine ⟨?_, ?_, ?_, ?_, ?_, ?_, ?_⟩
  · intro kv hm
    simp only [extract_patient_info, List.mem_filterMap] at hm
    obtain ⟨a, ha, hfa⟩ := hm
    rw [Option.map_eq_some'] at hfa
    obtain ⟨w, hw, hp⟩ := hfa
    cases hp
    exact search_kv_ne_nil true a _ w hw
  · intro x hm
    simp only [extract_clinical_data] at hm
    cases hb : search_bracket_val "clinical_data".data (clean_text s) with
    | none => rw [hb] at hm; simp at hm
    | some sub =>
      rw [hb] at hm
      exact findall_quoted_ne_nil sub x ((dedupFirst_mem x _).mp hm)
  · intro st hm
    simp only [extract_sites_and_specimens] at hm
    cases hb : search_bracket_val "specimen".data (clean_text s) with
    | none => rw [hb] at hm; simp at hm
    | some sub =>
      rw [hb] at hm
      obtain ⟨a, b⟩ := st
      obtain ⟨h1, h2⟩ := List.of_mem_zip hm
      exact ⟨findall_key_val_ne_nil _ sub a h1, findall_key_val_ne_nil _ sub b h2⟩
  · intro d hm
    simp only [extract_diagnoses] at hm
    cases hb : search_bracket_val "diagnosis".data (clean_text s) with
    | none => rw [hb] at hm; simp at hm
    | some sub =>
      rw [hb] at hm
      rw [List.mem_filterMap] at hm
      obtain ⟨frag, hfrag, hd⟩ := hm
      unfold diagOfFrag at hd
      cases hsite : search_kv false "site".data frag with
      | none => rw [hsite] at hd; simp at hd
      | some sv =>
        cases hres : search_kv false "result".data frag with
        | none => rw [hsite, hres] at hd; simp at hd
        | some rv =>
          rw [hsite, hres] at hd
          cases hd
          refine ⟨search_kv_ne_nil false _ frag sv hsite, ?_,
            search_kv_ne_nil false _ frag rv hres⟩
          cases ht : search_kv false "type".data frag with
          | none => simp [ht]
          | some tv => simp only [ht, Option.getD_some]; exact search_kv_ne_nil false _ frag tv ht
  · intro x hm
    simp only [extract_descriptions] at hm
    cases hb : search_bracket_val "gross_description".data (clean_text s) with
    | none => rw [hb] at hm; simp at hm
    | some sub =>
      rw [hb] at hm
      exact findall_key_val_ne_nil _ sub x ((dedupFirst_mem x _).mp hm)
  · exact fun kv hm => findall_pairs_ne_nil _ kv hm
  · intro x hm
    simp only [extract_other_data, List.mem_filterMap] at hm
    obtain ⟨kv, hkv, he⟩ := hm
    unfold otherEntry at he
    repeat' split at he
    all_goals simp_all
    intro hx
    rw [← he] at hx
    simp [List.append_eq_nil] at hx

theorem extracted_strings_nonempty_witness :
    "John".data ≠ [] ∧
    (extract_from_text exC9).patient_info = [("patient_name".data, "John".data)] :=
  ⟨(extracted_strings_nonempty exC9).1 ("patient_name".data, "John".data) (by decide),
   by decide⟩

/-- C3: when the `diagnosis` bracket search succeeds, the diagnoses are the
brace fragments mapped through the per-fragment recovery: a fragment
contributes an entry iff both its `site` and `result` searches succeed, the
entry's type is the fragment's `type` value or the literal `"N/A"`, and every
entry has non-empty site and result. -/

theorem diagnosis_completeness_gate (s sub : List Char)
    (h : search_bracket_val "diagnosis".data (clean_text s) = some sub) :
    (extract_from_text s).diagnoses = (findall_braces sub).filterMap diagOfFrag ∧
    (∀ frag, (diagOfFrag frag).isSome ↔
      ((search_kv false "site".data frag).isSome ∧
       (search_kv false "result".data frag).isSome)) ∧
    (∀ frag d, diagOfFrag frag = some d →
      search_kv false "site".data frag = some d.site ∧
      search_kv false "result".data frag = some d.result ∧
      d.type = (search_kv false "type".data frag).getD "N/A".data) ∧
    (∀ d ∈ (extract_from_text s).diagnoses, d.site ≠ [] ∧ d.result ≠ []) := by
  refine ⟨?_, ?_, ?_, ?_⟩
  · rw [extract_from_text_def]
    simp only [extract_diagnoses, h]
  · intro frag
    unfold diagOfFrag
    cases hsite : search_kv false "site".data frag with
    | none => simp
    | some sv =>
      cases hres : search_kv false "result".data frag with
      | none => simp
      | some rv => simp
  · intro frag d hd
    unfold diagOfFrag at hd
    cases hsite : search_kv false "site".data frag with
    | none => rw [hsite] at hd; simp at hd
    | some sv =>
      cases hres : search_kv false "result".data frag with
      | none => rw [hsite, hres] at hd; simp at hd
      | some rv =>
        rw [hsite, hres] at hd
        cases hd
        exact ⟨rfl, rfl, rfl⟩
  · intro d hm
    have h9 := (extracted_strings_nonempty s).2.2.2.1 d hm
    exact ⟨h9.1, h9.2.2⟩

theorem diagnosis_completeness_gate_witness :
    (extract_from_text exC3).diagnoses =
      [{ site := "Arm".data, type := "N/A".data, result := "OK".data }] ∧
    "Arm".data ≠ [] := by
  have h := diagnosis_completeness_gate exC3 exC3sub (by decide)
  constructor
  · rw [h.1]; decide
  · exact (h.2.2.2 { site := "Arm".data, type := "N/A".data, result := "OK".data }
      (by rw [h.1]; decide)).1

/-- C4: when the `clinical_data` bracket search succeeds, the clinical notes
are exactly the quoted tokens of the captured substring with exact duplicates
removed, keeping the first occurrence: the result is duplicate-free, is an
order-preserving sublist of the token sequence, and contains exactly the
tokens of that sequence. -/

theorem clinical_dedup (s sub : List Char)
    (h : search_bracket_val "clinical_data".data (clean_text s) = some sub) :
    (extract_from_text s).clinical_info = dedupFirst (findall_quoted sub) ∧
    (extract_from_text s).clinical_info.Nodup ∧
    (extract_from_text s).clinical_info.Sublist (findall_quoted sub) ∧
    (∀ x, x ∈ (extract_from_text s).clinical_info ↔ x ∈ findall_quoted sub) := by
  have hc : (extract_from_text s).clinical_info = dedupFirst (findall_quoted sub) := by
    rw [extract_from_text_def]
    simp only [extract_clinical_data, h]
  refine ⟨hc, ?_, ?_, ?_⟩
  · rw [hc]; exact dedupFirst_nodup _
  · rw [hc]; exact dedupFirst_sublist _
  · intro x; rw [hc]; exact dedupFirst_mem x _

theorem clinical_dedup_witness :
    (extract_from_text exC4).clinical_info = ["R/O WART".data, "R/O TINEA".data] ∧
    (extract_from_text exC4).clinical_info.Nodup := by
  have h := clinical_dedup exC4 exC4sub (by decide)
  exact ⟨by rw [h.1]; decide, h.2.1⟩

/-- C5: `other` is exactly the key/value pairs of the normalized text, in
first-seen scan order, filtered: every emitted entry comes from a pair whose
key is (case-insensitively) outside the reserved set and is not a key of
`patient_info`, formatted as `"key: value"`; a pair whose key is reserved is
never emitted. -/

theorem unclassified_exclusion (s : List Char) :
    (extract_from_text s).other =
      (findall_pairs (clean_text s)).filterMap
        (otherEntry (extract_patient_info (clean_text s))) ∧
    (∀ e ∈ (extract_from_text s).other, ∃ kv,
      kv ∈ findall_pairs (clean_text s) ∧
      e = kv.1 ++ ": ".data ++ kv.2 ∧
      lowerL kv.1 ∉ known_keys.map lowerL ∧
      ∀ p ∈ extract_patient_info (clean_text s), p.1 ≠ kv.1) ∧
    (∀ kv, lowerL kv.1 ∈ known_keys.map lowerL →
      otherEntry (extract_patient_info (clean_text s)) kv = none) := by
  refine ⟨by rw [extract_from_text_def]; rfl, ?_, ?_⟩
  · intro e he
    rw [extract_from_text_def] at he
    simp only [extract_other_data, List.mem_filterMap] at he
    obtain ⟨kv, hkv, hent⟩ := he
    refine ⟨kv, hkv, ?_⟩
    unfold otherEntry at hent
    by_cases h1 : lowerL kv.1 ∈ known_keys.map lowerL
    · rw [if_pos h1] at hent; exact Option.noConfusion hent
    · rw [if_neg h1] at hent
      by_cases h2 : (extract_patient_info (clean_text s)).any (fun p => p.1 = kv.1)
      · rw [if_pos h2] at hent; exact Option.noConfusion hent
      · rw [if_neg h2] at hent
        cases hent
        refine ⟨rfl, h1, ?_⟩
        intro p hp hpk
        exact h2 (List.any_eq_true.mpr ⟨p, hp, by simp [hpk]⟩)
  · intro kv h1
    unfold otherEntry
    rw [if_pos h1]

theorem unclassified_exclusion_witness :
    (extract_from_text exC5).other = ["custom_field: X".data] ∧
    otherEntry (extract_patient_info (clean_text exC5)) ("age".data, "30 Years".data) =
      none := by
  have h := unclassified_exclusion exC5
  refine ⟨?_, ?_⟩
  · rw [h.1]; decide
  · exact h.2.2 ("age".data, "30 Years".data) (by decide)

/-- C10: a bracket-value capture runs from the key's `[` to the earliest
following `]`, even when that `]` sits inside a quoted item, so the captured
region never contains `]`; consequently, on the concrete input below the item
`tw]o` and everything after it are lost and only `one` is extracted. -/

theorem bracket_capture_truncation :
    (∀ key l cap, search_bracket_val key l = some cap → ']' ∉ cap) ∧
    (extract_from_text
      "\x7b\"clinical_data\": [\"one\", \"tw]o\", \"three\"]\x7d".data).clinical_info =
      ["one".data] := by
  constructor
  · have htry : ∀ key l cap, tryBracket key l = some cap → ']' ∉ cap := by
      intro key l cap h
      unfold tryBracket at h
      repeat' split at h
      all_goals try simp_all
      rename_i r5 _ _ _
      cases h
      intro hmem
      have := List.mem_takeWhile_imp hmem
      simp at this
    intro key l cap h
    induction l with
    | nil => simp [search_bracket_val] at h
    | cons c cs ih =>
      cases hw : tryBracket key (c :: cs) with
      | none =>
        simp only [search_bracket_val, hw] at h
        exact ih h
      | some v =>
        simp only [search_bracket_val, hw] at h
        cases h
        exact htry key (c :: cs) _ hw
  · decide

theorem bracket_capture_truncation_witness :
    ']' ∉ "\"one\", \"tw".data :=
  bracket_capture_truncation.1 "clinical_data".data
    (clean_text bracket_capture_truncation_witness_input)
    "\"one\", \"tw".data (by decide)

/-! ## Properties of the text normalizer -/

theorem noTwoSpaces_cons (x : Char) (xs : List Char)
    (h1 : ∀ y, xs.head? = some y → (x == ' ' && y == ' ') = false)
    (h2 : noTwoSpaces xs = true) : noTwoSpaces (x :: xs) = true := by
  cases xs with
  | nil => rfl
  | cons y ys =>
    have := h1 y rfl
    simp only [noTwoSpaces, Bool.and_eq_true, Bool.not_eq_true']
    exact ⟨this, h2⟩

theorem noTwoSpaces_tail (x : Char) (xs : List Char)
    (h : noTwoSpaces (x :: xs) = true) : noTwoSpaces xs = true := by
  cases xs with
  | nil => rfl
  | cons y ys =>
    simp only [noTwoSpaces, Bool.and_eq_true] at h
    exact h.2

theorem noTwoSpaces_dropWhile (p : Char → Bool) :
    ∀ l, noTwoSpaces l = true → noTwoSpaces (l.dropWhile p) = true
  | [], h => h
  | c :: cs, h => by
    rw [List.dropWhile_cons]
    split
    · exact noTwoSpaces_dropWhile p cs (noTwoSpaces_tail c cs h)
    · exact h

theorem allWs_sublist {l1 l2 : List Char} (h : l1.Sublist l2)
    (h2 : allWsIsSpace l2 = true) : allWsIsSpace l1 = true := by
  simp only [allWsIsSpace, List.all_eq_true] at *
  exact fun c hc => h2 c (h.subset hc)

theorem allWs_dropWhile (p : Char → Bool) (l : List Char)
    (h : allWsIsSpace l = true) : allWsIsSpace (l.dropWhile p) = true :=
  allWs_sublist (List.dropWhile_sublist p) h

theorem allWs_reverse (l : List Char) (h : allWsIsSpace l = true) :
    allWsIsSpace l.reverse = true := by
  simp only [allWsIsSpace, List.all_eq_true, List.mem_reverse] at *
  exact h

theorem noTwoSpaces_iff_chain : ∀ l : List Char,
    noTwoSpaces l = true ↔ List.Chain' (fun a b => (a == ' ' && b == ' ') = false) l
  | [] => by simp [noTwoSpaces]
  | [x] => by simp [noTwoSpaces]
  | a :: b :: rest => by
    rw [List.chain'_cons]
    simp only [noTwoSpaces, Bool.and_eq_true, Bool.not_eq_true']
    rw [noTwoSpaces_iff_chain (b :: rest)]

theorem noTwoSpaces_reverse (l : List Char) (h : noTwoSpaces l = true) :
    noTwoSpaces l.reverse = true := by
  rw [noTwoSpaces_iff_chain] at h ⊢
  rw [List.chain'_reverse]
  refine List.Chain'.imp ?_ h
  intro a b hab
  show (b == ' ' && a == ' ') = false
  rw [Bool.and_comm]
  exact hab

theorem dropWhile_head_not (p : Char → Bool) :
    ∀ (l : List Char) (c : Char), ((l.dropWhile p).head? = some c) → p c = false
  | [], c => by simp
  | d :: ds, c => by
    rw [List.dropWhile_cons]
    split
    · exact dropWhile_head_not p ds c
    · rename_i hd
      intro h
      cases h
      simpa using hd

theorem getLast?_dropWhile (p : Char → Bool) :
    ∀ l : List Char, l.dropWhile p ≠ [] → (l.dropWhile p).getLast? = l.getLast?
  | [], h => rfl
  | d :: ds, h => by
    by_cases hd : p d
    · rw [List.dropWhile_cons, if_pos hd] at h ⊢
      rw [getLast?_dropWhile p ds h]
      have hds : ds ≠ [] := by
        intro he
        subst he
        simp at h
      cases ds with
      | nil => exact absurd rfl hds
      | cons e es => simp
    · rw [List.dropWhile_cons, if_neg hd]

theorem collapseWsAux_allWs :
    ∀ (l : List Char) (b : Bool), allWsIsSpace (collapseWsAux b l) = true
  | [], b => by simp [collapseWsAux, allWsIsSpace]
  | c :: cs, b => by
    cases hc : isPySpace c with
    | true =>
      cases b with
      | true => simpa [collapseWsAux, hc] using collapseWsAux_allWs cs true
      | false =>
        have ih := collapseWsAux_allWs cs true
        simp_all [collapseWsAux, allWsIsSpace, isPySpace]
    | false =>
      have ih := collapseWsAux_allWs cs false
      simp_all [collapseWsAux, allWsIsSpace]

theorem collapseWsAux_true_head :
    ∀ (l : List Char) (c : Char), (collapseWsAux true l).head? = some c →
      isPySpace c = false
  | [], c => by simp [collapseWsAux]
  | d :: ds, c => by
    cases hd : isPySpace d with
    | true =>
      simp only [collapseWsAux, hd, if_true]
      exact collapseWsAux_true_head ds c
    | false =>
      simp only [collapseWsAux, hd, Bool.false_eq_true, if_false, List.head?_cons]
      intro h
      cases h
      exact hd

theorem collapseWsAux_noTwo :
    ∀ (l : List Char) (b : Bool), noTwoSpaces (collapseWsAux b l) = true
  | [], b => rfl
  | c :: cs, b => by
    cases hc : isPySpace c with
    | true =>
      cases b with
      | true =>
        simpa [collapseWsAux, hc] using collapseWsAux_noTwo cs true
      | false =>
        simp only [collapseWsAux, hc, if_true]
        refine noTwoSpaces_cons ' ' _ ?_ (collapseWsAux_noTwo cs true)
        intro y hy
        have := collapseWsAux_true_head cs y hy
        simp [isPySpace] at this
        simp [this.1]
    | false =>
      simp only [collapseWsAux, hc, Bool.false_eq_true, if_false]
      refine noTwoSpaces_cons c _ ?_ (collapseWsAux_noTwo cs false)
      intro y hy
      have hcs : ¬(c = ' ') := by
        intro he
        rw [he] at hc
        simp [isPySpace] at hc
      simp [hcs]

theorem dropWhile_tail_sublist (p : Char → Bool) (cs rest : List Char) (t : Char)
    (hr : cs.dropWhile p = t :: rest) : rest.Sublist cs := by
  have h1 : (t :: rest).Sublist cs := by
    rw [← hr]
    exact List.dropWhile_sublist p
  exact ((List.Sublist.refl rest).cons t).trans h1

theorem allWs_tail (c : Char) (cs : List Char) (h : allWsIsSpace (c :: cs) = true) :
    allWsIsSpace cs = true := by
  simp only [allWsIsSpace, List.all_cons, Bool.and_eq_true] at h
  exact h.2

theorem subCCAux_head_space :
    ∀ (fuel : Nat) (l : List Char),
      (subCommaCommaAux fuel l).head? = some ' ' → l.head? = some ' '
  | 0, l => fun h => h
  | fuel + 1, [] => by simp [subCommaCommaAux]
  | fuel + 1, c :: cs => by
    simp only [subCommaCommaAux]
    by_cases hc : c = ','
    · rw [if_pos hc]
      split
      · intro h
        simp at h
      · intro h
        exact h
    · rw [if_neg hc]
      intro h
      exact h

theorem subCCAux_allWs :
    ∀ (fuel : Nat) (l : List Char), allWsIsSpace l = true →
      allWsIsSpace (subCommaCommaAux fuel l) = true
  | 0, l, h => h
  | fuel + 1, [], h => h
  | fuel + 1, c :: cs, h => by
    have hcs := allWs_tail c cs h
    simp only [subCommaCommaAux]
    by_cases hc : c = ','
    · rw [if_pos hc]
      split
      · rename_i rest hr
        have hrest := allWs_sublist (dropWhile_tail_sublist isPySpace cs rest ',' hr) hcs
        have ih := subCCAux_allWs fuel rest hrest
        simp only [allWsIsSpace, List.all_cons, Bool.and_eq_true] at ih ⊢
        exact ⟨by simp [isPySpace], ih⟩
      · have ih := subCCAux_allWs fuel cs hcs
        simp only [allWsIsSpace, List.all_cons, Bool.and_eq_true] at h ⊢
        exact ⟨h.1, ih⟩
    · rw [if_neg hc]
      have ih := subCCAux_allWs fuel cs hcs
      simp only [allWsIsSpace, List.all_cons, Bool.and_eq_true] at h ⊢
      exact ⟨h.1, ih⟩

theorem subCCAux_noTwo :
    ∀ (fuel : Nat) (l : List Char), allWsIsSpace l = true → noTwoSpaces l = true →
      noTwoSpaces (subCommaCommaAux fuel l) = true
  | 0, l, _, h2 => h2
  | fuel + 1, [], _, h2 => h2
  | fuel + 1, c :: cs, h1, h2 => by
    have hcs1 := allWs_tail c cs h1
    have hcs2 := noTwoSpaces_tail c cs h2
    simp only [subCommaCommaAux]
    by_cases hc : c = ','
    · rw [if_pos hc]
      split
      · rename_i rest hr
        have hsub := dropWhile_tail_sublist isPySpace cs rest ',' hr
        have hrest2 : noTwoSpaces rest = true := by
          have hd := noTwoSpaces_dropWhile isPySpace cs hcs2
          rw [hr] at hd
          exact noTwoSpaces_tail _ _ hd
        refine noTwoSpaces_cons ',' _ (fun y hy => by simp) ?_
        exact subCCAux_noTwo fuel rest (allWs_sublist hsub hcs1) hrest2
      · refine noTwoSpaces_cons c _ ?_ (subCCAux_noTwo fuel cs hcs1 hcs2)
        intro y hy
        simp [hc]
    · rw [if_neg hc]
      refine noTwoSpaces_cons c _ ?_ (subCCAux_noTwo fuel cs hcs1 hcs2)
      intro y hy
      by_cases hsp : c = ' '
      · subst hsp
        by_cases hy2 : y = ' '
        · subst hy2
          have hh := subCCAux_head_space fuel cs hy
          cases cs with
          | nil => simp at hh
          | cons d ds =>
            simp only [List.head?_cons] at hh
            cases hh
            simp [noTwoSpaces] at h2
        · simp [hy2]
      · simp [hsp]

theorem subCCAux_id :
    ∀ (fuel : Nat) (l : List Char), ',' ∉ l → subCommaCommaAux fuel l = l
  | 0, l, _ => rfl
  | _ + 1, [], _ => rfl
  | fuel + 1, c :: cs, h => by
    have hc : ¬(c = ',') := fun he => h (he ▸ List.mem_cons_self c cs)
    simp only [subCommaCommaAux]
    rw [if_neg hc, subCCAux_id fuel cs (fun hm => h (List.mem_cons_of_mem c hm))]

theorem subBCAux_head_space :
    ∀ (fuel : Nat) (l : List Char),
      (subLBracketCommaAux fuel l).head? = some ' ' → l.head? = some ' '
  | 0, l => fun h => h
  | fuel + 1, [] => by simp [subLBracketCommaAux]
  | fuel + 1, c :: cs => by
    simp only [subLBracketCommaAux]
    by_cases hc : c = '['
    · rw [if_pos hc]
      split
      · intro h
        simp at h
      · intro h
        exact h
    · rw [if_neg hc]
      intro h
      exact h

theorem subBCAux_allWs :
    ∀ (fuel : Nat) (l : List Char), allWsIsSpace l = true →
      allWsIsSpace (subLBracketCommaAux fuel l) = true
  | 0, l, h => h
  | fuel + 1, [], h => h
  | fuel + 1, c :: cs, h => by
    have hcs := allWs_tail c cs h
    simp only [subLBracketCommaAux]
    by_cases hc : c = '['
    · rw [if_pos hc]
      split
      · rename_i rest hr
        have hrest := allWs_sublist (dropWhile_tail_sublist isPySpace cs rest ',' hr) hcs
        have ih := subBCAux_allWs fuel rest hrest
        simp only [allWsIsSpace, List.all_cons, Bool.and_eq_true] at ih ⊢
        exact ⟨by simp [isPySpace], ih⟩
      · have ih := subBCAux_allWs fuel cs hcs
        simp only [allWsIsSpace, List.all_cons, Bool.and_eq_true] at h ⊢
        exact ⟨h.1, ih⟩
    · rw [if_neg hc]
      have ih := subBCAux_allWs fuel cs hcs
      simp only [allWsIsSpace, List.all_cons, Bool.and_eq_true] at h ⊢
      exact ⟨h.1, ih⟩

theorem subBCAux_noTwo :
    ∀ (fuel : Nat) (l : List Char), allWsIsSpace l = true → noTwoSpaces l = true →
      noTwoSpaces (subLBracketCommaAux fuel l) = true
  | 0, l, _, h2 => h2
  | fuel + 1, [], _, h2 => h2
  | fuel + 1, c :: cs, h1, h2 => by
    have hcs1 := allWs_tail c cs h1
    have hcs2 := noTwoSpaces_tail c cs h2
    simp only [subLBracketCommaAux]
    by_cases hc : c = '['
    · rw [if_pos hc]
      split
      · rename_i rest hr
        have hsub := dropWhile_tail_sublist isPySpace cs rest ',' hr
        have hrest2 : noTwoSpaces rest = true := by
          have hd := noTwoSpaces_dropWhile isPySpace cs hcs2
          rw [hr] at hd
          exact noTwoSpaces_tail _ _ hd
        refine noTwoSpaces_cons '[' _ (fun y hy => by simp) ?_
        exact subBCAux_noTwo fuel rest (allWs_sublist hsub hcs1) hrest2
      · refine noTwoSpaces_cons c _ ?_ (subBCAux_noTwo fuel cs hcs1 hcs2)
        intro y hy
        simp [hc]
    · rw [if_neg hc]
      refine noTwoSpaces_cons c _ ?_ (subBCAux_noTwo fuel cs hcs1 hcs2)
      intro y hy
      by_cases hsp : c = ' '
      · subst hsp
        by_cases hy2 : y = ' '
        · subst hy2
          have hh := subBCAux_head_space fuel cs hy
          cases cs with
          | nil => simp at hh
          | cons d ds =>
            simp only [List.head?_cons] at hh
            cases hh
            simp [noTwoSpaces] at h2
        · simp [hy2]
      · simp [hsp]

theorem subBCAux_id :
    ∀ (fuel : Nat) (l : List Char), ',' ∉ l → subLBracketCommaAux fuel l = l
  | 0, l, _ => rfl
  | _ + 1, [], _ => rfl
  | fuel + 1, c :: cs, h => by
    have hcs : ',' ∉ cs := fun hm => h (List.mem_cons_of_mem c hm)
    simp only [subLBracketCommaAux]
    by_cases hc : c = '['
    · rw [if_pos hc]
      split
      · rename_i rest hr
        exfalso
        apply hcs
        exact (List.dropWhile_sublist isPySpace).subset (hr ▸ List.mem_cons_self ',' rest)
      · rw [subBCAux_id fuel cs hcs]
    · rw [if_neg hc, subBCAux_id fuel cs hcs]

theorem subCRAux_head_space :
    ∀ (fuel : Nat) (l : List Char),
      (subCommaRBracketAux fuel l).head? = some ' ' → l.head? = some ' '
  | 0, l => fun h => h
  | fuel + 1, [] => by simp [subCommaRBracketAux]
  | fuel + 1, c :: cs => by
    simp only [subCommaRBracketAux]
    by_cases hc : c = ','
    · rw [if_pos hc]
      split
      · intro h
        simp at h
      · intro h
        exact h
    · rw [if_neg hc]
      intro h
      exact h

theorem subCRAux_allWs :
    ∀ (fuel : Nat) (l : List Char), allWsIsSpace l = true →
      allWsIsSpace (subCommaRBracketAux fuel l) = true
  | 0, l, h => h
  | fuel + 1, [], h => h
  | fuel + 1, c :: cs, h => by
    have hcs := allWs_tail c cs h
    simp only [subCommaRBracketAux]
    by_cases hc : c = ','
    · rw [if_pos hc]
      split
      · rename_i rest hr
        have hrest := allWs_sublist (dropWhile_tail_sublist isPySpace cs rest ']' hr) hcs
        have ih := subCRAux_allWs fuel rest hrest
        simp only [allWsIsSpace, List.all_cons, Bool.and_eq_true] at ih ⊢
        exact ⟨by simp [isPySpace], ih⟩
      · have ih := subCRAux_allWs fuel cs hcs
        simp only [allWsIsSpace, List.all_cons, Bool.and_eq_true] at h ⊢
        exact ⟨h.1, ih⟩
    · rw [if_neg hc]
      have ih := subCRAux_allWs fuel cs hcs
      simp only [allWsIsSpace, List.all_cons, Bool.and_eq_true] at h ⊢
      exact ⟨h.1, ih⟩

theorem subCRAux_noTwo :
    ∀ (fuel : Nat) (l : List Char), allWsIsSpace l = true → noTwoSpaces l = true →
      noTwoSpaces (subCommaRBracketAux fuel l) = true
  | 0, l, _, h2 => h2
  | fuel + 1, [], _, h2 => h2
  | fuel + 1, c :: cs, h1, h2 => by
    have hcs1 := allWs_tail c cs h1
    have hcs2 := noTwoSpaces_tail c cs h2
    simp only [subCommaRBracketAux]
    by_cases hc : c = ','
    · rw [if_pos hc]
      split
      · rename_i rest hr
        have hsub := dropWhile_tail_sublist isPySpace cs rest ']' hr
        have hrest2 : noTwoSpaces rest = true := by
          have hd := noTwoSpaces_dropWhile isPySpace cs hcs2
          rw [hr] at hd
          exact noTwoSpaces_tail _ _ hd
        refine noTwoSpaces_cons ']' _ (fun y hy => by simp) ?_
        exact subCRAux_noTwo fuel rest (allWs_sublist hsub hcs1) hrest2
      · refine noTwoSpaces_cons c _ ?_ (subCRAux_noTwo fuel cs hcs1 hcs2)
        intro y hy
        simp [hc]
    · rw [if_neg hc]
      refine noTwoSpaces_cons c _ ?_ (subCRAux_noTwo fuel cs hcs1 hcs2)
      intro y hy
      by_cases hsp : c = ' '
      · subst hsp
        by_cases hy2 : y = ' '
        · subst hy2
          have hh := subCRAux_head_space fuel cs hy
          cases cs with
          | nil => simp at hh
          | cons d ds =>
            simp only [List.head?_cons] at hh
            cases hh
            simp [noTwoSpaces] at h2
        · simp [hy2]
      · simp [hsp]

theorem subCRAux_id :
    ∀ (fuel : Nat) (l : List Char), ',' ∉ l → subCommaRBracketAux fuel l = l
  | 0, l, _ => rfl
  | _ + 1, [], _ => rfl
  | fuel + 1, c :: cs, h => by
    have hc : ¬(c = ',') := fun he => h (he ▸ List.mem_cons_self c cs)
    simp only [subCommaRBracketAux]
    rw [if_neg hc, subCRAux_id fuel cs (fun hm => h (List.mem_cons_of_mem c hm))]

theorem stripWs_allWs (l : List Char) (h : allWsIsSpace l = true) :
    allWsIsSpace (stripWs l) = true :=
  allWs_reverse _ (allWs_dropWhile _ _ (allWs_reverse _ (allWs_dropWhile _ _ h)))

theorem stripWs_noTwo (l : List Char) (h : noTwoSpaces l = true) :
    noTwoSpaces (stripWs l) = true :=
  noTwoSpaces_reverse _ (noTwoSpaces_dropWhile _ _ (noTwoSpaces_reverse _
    (noTwoSpaces_dropWhile _ _ h)))

theorem stripWs_last (l : List Char) (c : Char)
    (h : (stripWs l).getLast? = some c) : isPySpace c = false := by
  unfold stripWs at h
  rw [List.getLast?_reverse] at h
  exact dropWhile_head_not isPySpace _ c h

theorem stripWs_head (l : List Char) (c : Char)
    (h : (stripWs l).head? = some c) : isPySpace c = false := by
  unfold stripWs at h
  rw [List.head?_reverse] at h
  have hne : (l.dropWhile isPySpace).reverse.dropWhile isPySpace ≠ [] := by
    intro he
    rw [he] at h
    simp at h
  rw [getLast?_dropWhile isPySpace _ hne, List.getLast?_reverse] at h
  exact dropWhile_head_not isPySpace l c h

theorem collapseWsAux_mem :
    ∀ (l : List Char) (b : Bool) (c : Char), c ∈ collapseWsAux b l → c ∈ l ∨ c = ' '
  | [], b, c => by simp [collapseWsAux]
  | d :: ds, b, c => by
    intro h
    cases hd : isPySpace d with
    | true =>
      cases b with
      | true =>
        have e : collapseWsAux true (d :: ds) = collapseWsAux true ds := by
          simp [collapseWsAux, hd]
        rw [e] at h
        rcases collapseWsAux_mem ds true c h with h1 | h1
        · exact Or.inl (List.mem_cons_of_mem d h1)
        · exact Or.inr h1
      | false =>
        have e : collapseWsAux false (d :: ds) = ' ' :: collapseWsAux true ds := by
          simp [collapseWsAux, hd]
        rw [e, List.mem_cons] at h
        rcases h with h | h
        · exact Or.inr h
        · rcases collapseWsAux_mem ds true c h with h1 | h1
          · exact Or.inl (List.mem_cons_of_mem d h1)
          · exact Or.inr h1
    | false =>
      have e : collapseWsAux b (d :: ds) = d :: collapseWsAux false ds := by
        cases b <;> simp [collapseWsAux, hd]
      rw [e, List.mem_cons] at h
      rcases h with h | h
      · exact Or.inl (h ▸ List.mem_cons_self d ds)
      · rcases collapseWsAux_mem ds false c h with h1 | h1
        · exact Or.inl (List.mem_cons_of_mem d h1)
        · exact Or.inr h1

/-- C6: the normalizer is the whitespace collapse followed by the three
one-pass pattern substitutions (`,,` to `,`, `[,` to `[`, `,]` to `]`) and a
final trim; its output has every whitespace character equal to a single
space, never two adjacent spaces, and no leading or trailing whitespace; it
is total, and on comma-free input it changes nothing beyond whitespace
collapsing and trimming. -/

theorem clean_text_normalization (s : List Char) :
    clean_text s =
      stripWs (subCommaRBracket (subLBracketComma (subCommaComma (collapseWs s)))) ∧
    allWsIsSpace (clean_text s) = true ∧
    noTwoSpaces (clean_text s) = true ∧
    (∀ c, (clean_text s).head? = some c → isPySpace c = false) ∧
    (∀ c, (clean_text s).getLast? = some c → isPySpace c = false) ∧
    (',' ∉ s → clean_text s = stripWs (collapseWs s)) := by
  have h1 : allWsIsSpace (collapseWs s) = true := collapseWsAux_allWs s false
  have h2 : noTwoSpaces (collapseWs s) = true := collapseWsAux_noTwo s false
  have h3 := subCCAux_allWs ((collapseWs s).length + 1) _ h1
  have h4 := subCCAux_noTwo ((collapseWs s).length + 1) _ h1 h2
  have h5 := subBCAux_allWs ((subCommaComma (collapseWs s)).length + 1) _ h3
  have h6 := subBCAux_noTwo ((subCommaComma (collapseWs s)).length + 1) _ h3 h4
  have h7 := subCRAux_allWs ((subLBracketComma (subCommaComma (collapseWs s))).length + 1) _ h5
  have h8 := subCRAux_noTwo ((subLBracketComma (subCommaComma (collapseWs s))).length + 1) _ h5 h6
  refine ⟨rfl, stripWs_allWs _ h7, stripWs_noTwo _ h8,
    fun c => stripWs_head _ c, fun c => stripWs_last _ c, ?_⟩
  intro hns
  have hnc : ',' ∉ collapseWs s := by
    intro hm
    rcases collapseWsAux_mem s false ',' hm with h | h
    · exact hns h
    · exact absurd h (by decide)
  simp only [clean_text, subCommaComma, subLBracketComma, subCommaRBracket]
  rw [subCCAux_id _ _ hnc]
  rw [subBCAux_id _ _ hnc]
  rw [subCRAux_id _ _ hnc]

theorem clean_text_normalization_witness :
    clean_text " a,, b ".data = "a, b".data ∧
    isPySpace 'a' = false ∧
    clean_text "  x \t y ".data = stripWs (collapseWs "  x \t y ".data) := by
  have h1 := clean_text_normalization " a,, b ".data
  have h2 := clean_text_normalization "  x \t y ".data
  refine ⟨by decide, ?_, h2.2.2.2.2.2 (by decide)⟩
  exact h1.2.2.2.1 'a' (by decide)

/-! ## Properties of the renderer -/

theorem enumFrom_mem {α β : Type} (f : Nat → α → β) :
    ∀ (i : Nat) (xs : List α) (y : β), y ∈ enumFrom f i xs → ∃ j a, a ∈ xs ∧ y = f j a
  | i, [], y => by simp [enumFrom]
  | i, x :: xs, y => by
    simp only [enumFrom, List.mem_cons]
    rintro (h | h)
    · exact ⟨i, x, Or.inl rfl, h⟩
    · obtain ⟨j, a, ha, hy⟩ := enumFrom_mem f (i + 1) xs y h
      exact ⟨j, a, Or.inr ha, hy⟩

theorem mem_render_patient_info (pi : List (List Char × List Char)) (l : List Char)
    (h : l ∈ render_patient_info pi) :
    l = "PATIENT INFORMATION:".data ∨ l = [] ∨ l.head? = some ' ' := by
  unfold render_patient_info at h
  split at h
  · simp at h
  · rcases List.mem_append.mp h with h | h
    · rcases List.mem_cons.mp h with h | h
      · exact Or.inl h
      · obtain ⟨kv, _, hkv⟩ := List.mem_map.mp h
        refine Or.inr (Or.inr ?_)
        rw [← hkv]
        rfl
    · simp at h
      exact Or.inr (Or.inl h)

theorem mem_render_clinical_info (ci : List (List Char)) (l : List Char)
    (h : l ∈ render_clinical_info ci) :
    l = "CLINICAL DATA:".data ∨ l = [] ∨ l.head? = some ' ' := by
  unfold render_clinical_info at h
  split at h
  · simp at h
  · rcases List.mem_append.mp h with h | h
    · rcases List.mem_cons.mp h with h | h
      · exact Or.inl h
      · obtain ⟨x, _, hx⟩ := List.mem_map.mp h
        refine Or.inr (Or.inr ?_)
        rw [← hx]
        rfl
    · simp at h
      exact Or.inr (Or.inl h)

theorem mem_render_sites (ss : List (List Char × List Char)) (l : List Char)
    (h : l ∈ render_sites ss) :
    l = "SPECIMEN COLLECTION SITES:".data ∨ l = [] ∨ l.head? = some ' ' := by
  unfold render_sites at h
  split at h
  · simp at h
  · rcases List.mem_append.mp h with h | h
    · rcases List.mem_cons.mp h with h | h
      · exact Or.inl h
      · obtain ⟨st, _, hst⟩ := List.mem_map.mp h
        refine Or.inr (Or.inr ?_)
        rw [← hst]
        rfl
    · simp at h
      exact Or.inr (Or.inl h)

theorem mem_diagLines_flatten :
    ∀ (ds : List Diagnosis) (i : Nat) (l : List Char),
      l ∈ (enumFrom diagLines i ds).flatten → l = [] ∨ l.head? = some ' '
  | [], i, l => by simp [enumFrom]
  | d :: ds, i, l => by
    simp only [enumFrom, List.flatten_cons]
    intro h
    rcases List.mem_append.mp h with h | h
    · simp only [diagLines, List.mem_cons, List.not_mem_nil, or_false] at h
      rcases h with h | h | h | h
      · right; rw [h]; rfl
      · right; rw [h]; rfl
      · right; rw [h]; rfl
      · left; exact h
    · exact mem_diagLines_flatten ds (i + 1) l h

theorem mem_render_diagnoses (ds : List Diagnosis) (l : List Char)
    (h : l ∈ render_diagnoses ds) :
    l = "DIAGNOSIS RESULTS:".data ∨ l = [] ∨ l.head? = some ' ' := by
  unfold render_diagnoses at h
  split at h
  · simp at h
  · rcases List.mem_cons.mp h with h | h
    · exact Or.inl h
    · exact Or.inr (mem_diagLines_flatten ds 1 l h)

theorem mem_render_descriptions (ds : List (List Char)) (l : List Char)
    (h : l ∈ render_descriptions ds) :
    l = "GROSS DESCRIPTIONS:".data ∨ l = [] ∨ l.head? = some ' ' := by
  unfold render_descriptions at h
  split at h
  · simp at h
  · rcases List.mem_append.mp h with h | h
    · rcases List.mem_cons.mp h with h | h
      · exact Or.inl h
      · obtain ⟨j, a, _, hy⟩ := enumFrom_mem _ 1 ds l h
        refine Or.inr (Or.inr ?_)
        rw [hy]
        rfl
    · simp at h
      exact Or.inr (Or.inl h)

theorem mem_render_other (os : List (List Char)) (l : List Char)
    (h : l ∈ render_other os) :
    l = "ADDITIONAL INFORMATION:".data ∨ l = [] ∨ l.head? = some ' ' := by
  unfold render_other at h
  split at h
  · simp at h
  · rcases List.mem_cons.mp h with h | h
    · exact Or.inl h
    · obtain ⟨x, _, hx⟩ := List.mem_map.mp h
      refine Or.inr (Or.inr ?_)
      rw [← hx]
      rfl

theorem heading_not_mem {seg : List (List Char)} {hd own : List Char}
    (shape : ∀ x ∈ seg, x = own ∨ x = [] ∨ x.head? = some ' ')
    (h1 : hd ≠ own) (h2 : hd ≠ []) (h3 : hd.head? ≠ some ' ') : hd ∉ seg := by
  intro hm
  rcases shape hd hm with h | h | h
  exacts [h1 h, h2 h, h3 h]

/-- C7: the renderer emits the six sections in the fixed source order; a
section's heading appears among the emitted lines iff the section has at
least one entry (empty sections are omitted entirely), and an entirely empty
record renders to the empty string with no trailing separator. -/

theorem renderer_fixed_sections (r : ExtractionRecord) :
    to_natural_language r = List.intercalate ['\n'] (renderLines r) ∧
    renderLines r =
      render_patient_info r.patient_info ++ render_clinical_info r.clinical_info ++
      render_sites r.sites ++ render_diagnoses r.diagnoses ++
      render_descriptions r.descriptions ++ render_other r.other ∧
    ("PATIENT INFORMATION:".data ∈ renderLines r ↔ r.patient_info ≠ []) ∧
    ("CLINICAL DATA:".data ∈ renderLines r ↔ r.clinical_info ≠ []) ∧
    ("SPECIMEN COLLECTION SITES:".data ∈ renderLines r ↔ r.sites ≠ []) ∧
    ("DIAGNOSIS RESULTS:".data ∈ renderLines r ↔ r.diagnoses ≠ []) ∧
    ("GROSS DESCRIPTIONS:".data ∈ renderLines r ↔ r.descriptions ≠ []) ∧
    ("ADDITIONAL INFORMATION:".data ∈ renderLines r ↔ r.other ≠ []) ∧
    (renderLines r = [] → to_natural_language r = []) := by
  have hmem : ∀ l, l ∈ renderLines r ↔
      (l ∈ render_patient_info r.patient_info ∨ l ∈ render_clinical_info r.clinical_info ∨
       l ∈ render_sites r.sites ∨ l ∈ render_diagnoses r.diagnoses ∨
       l ∈ render_descriptions r.descriptions ∨ l ∈ render_other r.other) := by
    intro l
    simp [renderLines, List.mem_append, or_assoc]
  refine ⟨rfl, rfl, ?_, ?_, ?_, ?_, ?_, ?_, ?_⟩
  · constructor
    · intro hm hemp
      rcases (hmem _).mp hm with h | h | h | h | h | h
      · rw [hemp] at h
        simp [render_patient_info] at h
      · exact heading_not_mem (mem_render_clinical_info _) (by decide) (by decide)
          (by decide) h
      · exact heading_not_mem (mem_render_sites _) (by decide) (by decide) (by decide) h
      · exact heading_not_mem (mem_render_diagnoses _) (by decide) (by decide) (by decide) h
      · exact heading_not_mem (mem_render_descriptions _) (by decide) (by decide)
          (by decide) h
      · exact heading_not_mem (mem_render_other _) (by decide) (by decide) (by decide) h
    · intro hne
      refine (hmem _).mpr (Or.inl ?_)
      unfold render_patient_info
      rw [if_neg hne]
      exact List.mem_append_left _ (List.mem_cons_self _ _)
  · constructor
    · intro hm hemp
      rcases (hmem _).mp hm with h | h | h | h | h | h
      · exact heading_not_mem (mem_render_patient_info _) (by decide) (by decide)
          (by decide) h
      · rw [hemp] at h
        simp [render_clinical_info] at h
      · exact heading_not_mem (mem_render_sites _) (by decide) (by decide) (by decide) h
      · exact heading_not_mem (mem_render_diagnoses _) (by decide) (by decide) (by decide) h
      · exact heading_not_mem (mem_render_descriptions _) (by decide) (by decide)
          (by decide) h
      · exact heading_not_mem (mem_render_other _) (by decide) (by decide) (by decide) h
    · intro hne
      refine (hmem _).mpr (Or.inr (Or.inl ?_))
      unfold render_clinical_info
      rw [if_neg hne]
      exact List.mem_append_left _ (List.mem_cons_self _ _)
  · constructor
    · intro hm hemp
      rcases (hmem _).mp hm with h | h | h | h | h | h
      · exact heading_not_mem (mem_render_patient_info _) (by decide) (by decide)
          (by decide) h
      · exact heading_not_mem (mem_render_clinical_info _) (by decide) (by decide)
          (by decide) h
      · rw [hemp] at h
        simp [render_sites] at h
      · exact heading_not_mem (mem_render_diagnoses _) (by decide) (by decide) (by decide) h
      · exact heading_not_mem (mem_render_descriptions _) (by decide) (by decide)
          (by decide) h
      · exact heading_not_mem (mem_render_other _) (by decide) (by decide) (by decide) h
    · intro hne
      refine (hmem _).mpr (Or.inr (Or.inr (Or.inl ?_)))
      unfold render_sites
      rw [if_neg hne]
      exact List.mem_append_left _ (List.mem_cons_self _ _)
  · constructor
    · intro hm hemp
      rcases (hmem _).mp hm with h | h | h | h | h | h
      · exact heading_not_mem (mem_render_patient_info _) (by decide) (by decide)
          (by decide) h
      · exact heading_not_mem (mem_render_clinical_info _) (by decide) (by decide)
          (by decide) h
      · exact heading_not_mem (mem_render_sites _) (by decide) (by decide) (by decide) h
      · rw [hemp] at h
        simp [render_diagnoses] at h
      · exact heading_not_mem (mem_render_descriptions _) (by decide) (by decide)
          (by decide) h
      · exact heading_not_mem (mem_render_other _) (by decide) (by decide) (by decide) h
    · intro hne
      refine (hmem _).mpr (Or.inr (Or.inr (Or.inr (Or.inl ?_))))
      unfold render_diagnoses
      rw [if_neg hne]
      exact List.mem_cons_self _ _
  · constructor
    · intro hm hemp
      rcases (hmem _).mp hm with h | h | h | h | h | h
      · exact heading_not_mem (mem_render_patient_info _) (by decide) (by decide)
          (by decide) h
      · exact heading_not_mem (mem_render_clinical_info _) (by decide) (by decide)
          (by decide) h
      · exact heading_not_mem (mem_render_sites _) (by decide) (by decide) (by decide) h
      · exact heading_not_mem (mem_render_diagnoses _) (by decide) (by decide) (by decide) h
      · rw [hemp] at h
        simp [render_descriptions] at h
      · exact heading_not_mem (mem_render_other _) (by decide) (by decide) (by decide) h
    · intro hne
      refine (hmem _).mpr (Or.inr (Or.inr (Or.inr (Or.inr (Or.inl ?_)))))
      unfold render_descriptions
      rw [if_neg hne]
      exact List.mem_append_left _ (List.mem_cons_self _ _)
  · constructor
    · intro hm hemp
      rcases (hmem _).mp hm with h | h | h | h | h | h
      · exact heading_not_mem (mem_render_patient_info _) (by decide) (by decide)
          (by decide) h
      · exact heading_not_mem (mem_render_clinical_info _) (by decide) (by decide)
          (by decide) h
      · exact heading_not_mem (mem_render_sites _) (by decide) (by decide) (by decide) h
      · exact heading_not_mem (mem_render_diagnoses _) (by decide) (by decide) (by decide) h
      · exact heading_not_mem (mem_render_descriptions _) (by decide) (by decide)
          (by decide) h
      · rw [hemp] at h
        simp [render_other] at h
    · intro hne
      refine (hmem _).mpr (Or.inr (Or.inr (Or.inr (Or.inr (Or.inr ?_)))))
      unfold render_other
      rw [if_neg hne]
      exact List.mem_cons_self _ _
  · intro h
    unfold to_natural_language
    rw [h]
    rfl

theorem renderer_fixed_sections_witness :
    "PATIENT INFORMATION:".data ∈
      renderLines ⟨[("patient_name".data, "J".data)], [], [], [], [], []⟩ ∧
    "CLINICAL DATA:".data ∉
      renderLines ⟨[("patient_name".data, "J".data)], [], [], [], [], []⟩ := by
  have h := renderer_fixed_sections ⟨[("patient_name".data, "J".data)], [], [], [], [], []⟩
  constructor
  · exact h.2.2.1.mpr (by decide)
  · intro hm
    exact (h.2.2.2.1.mp hm) rfl
